import Mathlib

/-!
Verification of the iterative genotype-demultiplexing model implemented in
`sc_split_genotype_free.py`.

Conventions of the shallow embedding:

* Python strings are `String` (cell barcodes) or `List Char` (variant keys,
  which the code splits on the separator character).
* Read counts are natural numbers; probability-valued state (posterior
  weights, genotype estimates, likelihoods) lives in `ℝ`, modelling the
  arithmetic exactly, without floating-point rounding.
* Fallible operations (`chrom_pos.split(':')[1]` raising `IndexError`,
  `math.log2` of a non-positive argument raising a `ValueError`) return
  `Except PyExn`.
* Variants are addressed by their row index in the input matrices; the
  DataFrame label `"chrom:pos"` of row `i` is assumed distinct per row, as
  required for label-based indexing to be well defined.
-/

/-- Exceptions raised by the embedded Python fragments: `IndexError` from
out-of-range sequence indexing, and the `ValueError` ("math domain error")
raised by `math.log2` on a non-positive argument. -/
inductive PyExn where
  | indexError
  | domainError
deriving DecidableEq

/-- `SNV_data` (source lines 16-28): stores the chromosome and position
fields of one variant.  Both fields are kept as the raw substrings produced
by `split(':')`, exactly as the source does (no numeric conversion). -/
structure SNV_data where
  CHROM : List Char
  POS : List Char
deriving DecidableEq

/-- Python `s.split(':')` for a single-character separator: splits the
character list at every occurrence of `':'`.  `splitC [] = [[]]`, matching
Python where `"".split(':') == ['']`. -/
def splitC : List Char → List (List Char)
  | [] => [[]]
  | c :: rest =>
    if c = ':' then [] :: splitC rest
    else
      match splitC rest with
      | [] => [[c]]
      | p :: ps => (c :: p) :: ps

/-- `SNV_data.__init__` (source lines 21-28): `CHROM = chrom_pos.split(':')[0]`
and `POS = chrom_pos.split(':')[1]`.  Indexing `[1]` raises `IndexError`
when the split produced fewer than two fields, i.e. when the separator is
absent. -/
def snvInit (chrom_pos : List Char) : Except PyExn SNV_data :=
  match splitC chrom_pos with
  | [] => .error .indexError
  | [_] => .error .indexError
  | c :: p :: _ => .ok ⟨c, p⟩

/-- The key `str(entry.CHROM) + ':' + str(entry.POS)` used throughout the
source to address per-variant rows. -/
def keyOf (s : SNV_data) : List Char := s.CHROM ++ ':' :: s.POS

/-- `SNV_data.get_all_SNV_pos` (source lines 30-43): builds the ordered list
of distinct `chrom:pos` keys, appending each key the first time it is seen. -/
def get_all_SNV_pos (all_SNVs : List SNV_data) : List (List Char) :=
  all_SNVs.foldl (fun acc e => if keyOf e ∈ acc then acc else acc ++ [keyOf e]) []

theorem splitC_ne_nil (s : List Char) : splitC s ≠ [] := by
  induction s with
  | nil => simp [splitC]
  | cons c rest ih =>
    by_cases h : c = ':'
    · simp [splitC, h]
    · cases hr : splitC rest with
      | nil => simp [splitC, h, hr]
      | cons p ps => simp [splitC, h, hr]

theorem splitC_of_not_mem {s : List Char} (h : ':' ∉ s) : splitC s = [s] := by
  induction s with
  | nil => rfl
  | cons c rest ih =>
    have hc : c ≠ ':' := fun hc => h (by simp [hc])
    have hr : splitC rest = [rest] := ih (fun hm => h (List.mem_cons_of_mem _ hm))
    simp [splitC, hc, hr]

theorem splitC_append_colon {c : List Char} (p : List Char) (h : ':' ∉ c) :
    splitC (c ++ ':' :: p) = c :: splitC p := by
  induction c with
  | nil => simp [splitC]
  | cons a as ih =>
    have ha : a ≠ ':' := fun hc => h (by simp [hc])
    have has : ':' ∉ as := fun hm => h (List.mem_cons_of_mem _ hm)
    have hres := ih has
    simp only [List.cons_append, splitC, if_neg ha, List.append_eq]
    rw [hres]

theorem get_all_SNV_pos_fold_nodup (l : List SNV_data) :
    ∀ acc : List (List Char), acc.Nodup →
      (l.foldl (fun acc e => if keyOf e ∈ acc then acc else acc ++ [keyOf e]) acc).Nodup := by
  induction l with
  | nil => intro acc h; simpa using h
  | cons e l ih =>
    intro acc h
    simp only [List.foldl_cons]
    by_cases hm : keyOf e ∈ acc
    · simpa [hm] using ih acc h
    · refine ih _ ?_
      simp [hm, List.nodup_append, h]

theorem get_all_SNV_pos_fold_mem (l : List SNV_data) :
    ∀ (acc : List (List Char)) (k : List Char),
      (k ∈ l.foldl (fun acc e => if keyOf e ∈ acc then acc else acc ++ [keyOf e]) acc
        ↔ k ∈ acc ∨ k ∈ l.map keyOf) := by
  induction l with
  | nil => intro acc k; simp
  | cons e l ih =>
    intro acc k
    simp only [List.foldl_cons, List.map_cons, List.mem_cons]
    by_cases hm : keyOf e ∈ acc
    · rw [if_pos hm, ih]
      constructor
      · rintro (h | h)
        · exact Or.inl h
        · exact Or.inr (Or.inr h)
      · rintro (h | h | h)
        · exact Or.inl h
        · exact Or.inl (h ▸ hm)
        · exact Or.inr h
    · rw [if_neg hm, ih]
      constructor
      · rintro (h | h)
        · rcases List.mem_append.1 h with h | h
          · exact Or.inl h
          · exact Or.inr (Or.inl (by simpa using h))
        · exact Or.inr (Or.inr h)
      · rintro (h | h | h)
        · exact Or.inl (List.mem_append.2 (Or.inl h))
        · exact Or.inl (List.mem_append.2 (Or.inr (by simp [h])))
        · exact Or.inr h

/-- `err = 0.01` (source line 146).  The constant is bound at the top of
`calculate_cell_likelihood` and never used afterwards: no clamping of the
genotype probabilities is performed before the logarithms are taken. -/
def errConst : ℚ := 1 / 100

/-- State threaded through the re-estimation branch of
`calculate_model_genotypes` (source lines 112-120): the two scalar
accumulators `A_sv` and `T_sv`, plus the genotype table
`model_genotypes[n].loc[pos]`, addressed here as cluster × variant-index. -/
structure ReEstState where
  A : ℝ
  T : ℝ
  geno : ℕ → ℕ → ℝ

/-- Body of the `for barcode in self.barcodes` loop of the re-estimation
branch (source lines 116-118): add `P_s_c[bc, n] * alt[v, bc]` to `A_sv`
and `P_s_c[bc, n] * (alt[v, bc] + ref[v, bc])` to `T_sv`. -/
noncomputable def accAT (P : String → ℕ → ℝ) (ref alt : ℕ → String → ℕ) (v n : ℕ)
    (AT : ℝ × ℝ) (bc : String) : ℝ × ℝ :=
  (AT.1 + P bc n * (alt v bc : ℝ),
   AT.2 + P bc n * ((alt v bc : ℝ) + (ref v bc : ℝ)))

/-- Body of the `for n in range(self.num)` loop of the re-estimation branch:
run the barcode loop from the current accumulator values and store
`(A_sv + 1) / (T_sv + 2)` as genotype of cluster `n` at variant `v`. -/
noncomputable def clusterStep (bcs : List String) (P : String → ℕ → ℝ)
    (ref alt : ℕ → String → ℕ) (v : ℕ) (st : ReEstState) (n : ℕ) : ReEstState :=
  let AT := bcs.foldl (accAT P ref alt v n) (st.A, st.T)
  { A := AT.1, T := AT.2,
    geno := fun m w => if m = n ∧ w = v then (AT.1 + 1) / (AT.2 + 2) else st.geno m w }

/-- Body of the `for snv in self.all_SNVs` loop of the re-estimation branch. -/
noncomputable def variantStep (num : ℕ) (bcs : List String) (P : String → ℕ → ℝ)
    (ref alt : ℕ → String → ℕ) (st : ReEstState) (v : ℕ) : ReEstState :=
  (List.range num).foldl (clusterStep bcs P ref alt v) st

/-- Re-estimation branch of `calculate_model_genotypes` (source lines
112-120).  `A_sv = T_sv = 0` is executed once, before the loop over
variants; the accumulators are never reset inside, so their running totals
carry across clusters and variants. -/
noncomputable def reestimate (V num : ℕ) (bcs : List String) (P : String → ℕ → ℝ)
    (ref alt : ℕ → String → ℕ) (g0 : ℕ → ℕ → ℝ) : ReEstState :=
  (List.range V).foldl (variantStep num bcs P ref alt)
    { A := 0, T := 0, geno := g0 }

/-- Modelled from the spec (§4.2, `reestimate_genotypes`): the same update
with the accumulators scoped to a single (variant, cluster) pair, i.e.
`A` and `T` restart from zero for every pair.  Used only to compare the
source behaviour against the specified one. -/
noncomputable def specReestimate (V num : ℕ) (bcs : List String) (P : String → ℕ → ℝ)
    (ref alt : ℕ → String → ℕ) (g0 : ℕ → ℕ → ℝ) : ℕ → ℕ → ℝ :=
  fun n v =>
    if n < num ∧ v < V then
      (bcs.foldl (fun a bc => a + P bc n * (alt v bc : ℝ)) 0 + 1) /
        (bcs.foldl (fun t bc => t + P bc n * ((alt v bc : ℝ) + (ref v bc : ℝ))) 0 + 2)
    else g0 n v

/-- `math.log2` on an exact real argument: defined (as `Real.logb 2`) for
positive arguments, a `ValueError` ("math domain error") otherwise. -/
noncomputable def mathLog2 (x : ℝ) : Except PyExn ℝ :=
  if 0 < x then .ok (Real.logb 2 x) else .error .domainError

/-- `l_P_c_Sv = alt_count * math.log2(g) + ref_count * math.log2(1 - g)`
(source line 166): the log-likelihood contribution of one covered variant,
with both logarithms evaluated regardless of the counts, exactly as the
source does. -/
noncomputable def l_P_c_Sv (alt_count ref_count : ℕ) (g : ℝ) : Except PyExn ℝ := do
  let la ← mathLog2 g
  let lr ← mathLog2 (1 - g)
  pure ((alt_count : ℝ) * la + (ref_count : ℝ) * lr)

/-- The loop `for i in indices: all_var_llhood += l_P_c_Sv` (source lines
157-169), starting from `all_var_llhood = 0`. -/
noncomputable def allVarLlhood (idxs : List ℕ) (altC refC : ℕ → ℕ) (g : ℕ → ℝ) :
    Except PyExn ℝ :=
  idxs.foldlM (fun acc i => do
    let t ← l_P_c_Sv (altC i) (refC i) (g i)
    pure (acc + t)) 0

/-- Row positions of the nonzero entries of one matrix column, in row
order: `matrix.loc[:, barcode].nonzero()` (source lines 152-155). -/
def nonzeroIdx (V : ℕ) (col : ℕ → ℕ) : List ℕ :=
  (List.range V).filter (fun i => col i ≠ 0)

/-- The `indices` list of source lines 151-155: the nonzero row positions of
the barcode's reference column followed by those of its alternate column.
A variant with both counts nonzero therefore appears twice. -/
def indicesOf (V : ℕ) (ref alt : ℕ → String → ℕ) (bc : String) : List ℕ :=
  nonzeroIdx V (fun i => ref i bc) ++ nonzeroIdx V (fun i => alt i bc)

/-- The unnormalized likelihood `P_c_s.loc[barcode, n] = 2 ** all_var_llhood`
(source line 171) computed for one barcode and one cluster. -/
noncomputable def P_c_s_entry (V : ℕ) (ref alt : ℕ → String → ℕ) (G : ℕ → ℕ → ℝ)
    (bc : String) (n : ℕ) : Except PyExn ℝ :=
  (allVarLlhood (indicesOf V ref alt bc) (fun i => alt i bc) (fun i => ref i bc)
      (fun v => G n v)).map (fun x => (2 : ℝ) ^ x)

/-- Pointwise update of a barcode × cluster matrix at one entry. -/
def upd (f : String → ℕ → ℝ) (b : String) (k : ℕ) (x : ℝ) : String → ℕ → ℝ :=
  fun b' k' => if b' = b ∧ k' = k then x else f b' k'

/-- The two matrices held by the model while likelihoods are computed:
`P_c_s` (unnormalized likelihood) and `P_s_c` (posterior). -/
structure CellLikeState where
  P_c_s : String → ℕ → ℝ
  P_s_c : String → ℕ → ℝ

/-- `P_c_s.div(P_c_s.sum(axis=1), axis=0)` (source line 174): divide every
row by the sum of its `num` cluster columns. -/
noncomputable def normalizeRows (num : ℕ) (f : String → ℕ → ℝ) : String → ℕ → ℝ :=
  fun b n => f b n / ∑ m ∈ Finset.range num, f b m

/-- Body of the outer `for barcode in self.barcodes` loop of
`calculate_cell_likelihood` (source lines 148-174): compute the `num`
likelihood entries of this barcode (sharing the one `indices` list), store
them in `P_c_s`, then recompute the whole posterior matrix `P_s_c` by row
normalization. -/
noncomputable def calcStep (V num : ℕ) (ref alt : ℕ → String → ℕ) (G : ℕ → ℕ → ℝ)
    (st : CellLikeState) (bc : String) : Except PyExn CellLikeState := do
  let Pcs ← (List.range num).foldlM (fun f n => do
      let ll ← allVarLlhood (indicesOf V ref alt bc) (fun i => alt i bc)
          (fun i => ref i bc) (fun v => G n v)
      pure (upd f bc n ((2 : ℝ) ^ ll))) st.P_c_s
  pure { P_c_s := Pcs, P_s_c := normalizeRows num Pcs }

/-- `calculate_cell_likelihood` (source lines 123-174): the loop over all
barcodes.  The first `ValueError` raised by `math.log2` aborts the call. -/
noncomputable def calculate_cell_likelihood (V num : ℕ) (bcs : List String)
    (ref alt : ℕ → String → ℕ) (G : ℕ → ℕ → ℝ) (st0 : CellLikeState) :
    Except PyExn CellLikeState :=
  bcs.foldlM (calcStep V num ref alt G) st0

/-- Total extraction from `Except`, used to state facts about the result of
a call that is separately known to have succeeded. -/
def getOk {ε α : Type} (e : Except ε α) (d : α) : α :=
  match e with
  | .ok a => a
  | .error _ => d

/-- `Except.isOk` as a plain Boolean. -/
def isOkB {ε α : Type} : Except ε α → Bool
  | .ok _ => true
  | .error _ => false

/-- The all-zero `CellLikeState` built by `models.__init__` (source lines
70-76). -/
def zeroState : CellLikeState := ⟨fun _ _ => 0, fun _ _ => 0⟩

/-- `P_s_c.loc[barcode, :].max()` (source line 186): the maximum of the
`num` posterior entries of one row.  pandas returns NaN for an empty row
and every comparison with NaN is false; an empty row is given the junk
value 0 here, which fails the `>= 0.8` test just the same. -/
noncomputable def rowMax (num : ℕ) (row : ℕ → ℝ) : ℝ :=
  match num with
  | 0 => 0
  | n + 1 => (List.range (n + 1)).foldl (fun m k => max m (row k)) (row 0)

/-- `pd.Series.idxmax` (source line 187): the label of the first occurrence
of the row maximum among columns `0 .. num-1`. -/
noncomputable def idxmaxRow (num : ℕ) (row : ℕ → ℝ) : ℕ :=
  (List.range num).foldl (fun best n => if row best < row n then n else best) 0

/-- `assign_cells` (source lines 177-191): every barcode whose posterior row
maximum is at least 0.8 is appended to the bucket of `idxmax`; afterwards
buckets `0 .. num-1` are sorted (Python `sorted`, ascending lexicographic
order). -/
noncomputable def assign_cells (bcs : List String) (P : String → ℕ → ℝ) (num : ℕ)
    (asg0 : ℕ → List String) : ℕ → List String :=
  let afterLoop := bcs.foldl (fun asg bc =>
    if (0.8 : ℝ) ≤ rowMax num (P bc) then
      (fun m => if m = idxmaxRow num (P bc) then asg m ++ [bc] else asg m)
    else asg) asg0
  fun n => if n < num then List.insertionSort (· ≤ ·) (afterLoop n) else afterLoop n

/-- Claim C6 (counterexample): a key whose position field is non-numeric is
accepted without any error, because `SNV_data.__init__` stores the raw
substring and never converts or validates it: constructing from `"1:x"`
succeeds although `'x'` is not a digit. -/
theorem claim_C6_counterexample :
    snvInit ['1', ':', 'x'] = .ok ⟨['1'], ['x']⟩ ∧ 'x'.isDigit = false := by
  constructor
  · rfl
  · rfl

/-- Claim C6 (amended): a key lacking the separator raises an error
(IndexError) at construction time; a key containing the separator is
accepted with no validation of the position field, so for every well-formed
chrom:pos key construction succeeds and yields the two fields; and
registering the same key twice yields exactly one entry in the ordered
position list, at the position of its first occurrence (a duplicate leaves
the list unchanged, a new key is appended at the end, the list stays
duplicate-free, and it contains exactly the keys registered so far). -/
theorem claim_C6_amended :
    (∀ s : List Char, ':' ∉ s → snvInit s = .error .indexError)
    ∧ (∀ c p : List Char, ':' ∉ c → ':' ∉ p → snvInit (c ++ ':' :: p) = .ok ⟨c, p⟩)
    ∧ (∀ l : List SNV_data, (get_all_SNV_pos l).Nodup)
    ∧ (∀ (l : List SNV_data) (e : SNV_data),
        get_all_SNV_pos (l ++ [e]) =
          if keyOf e ∈ get_all_SNV_pos l then get_all_SNV_pos l
          else get_all_SNV_pos l ++ [keyOf e])
    ∧ (∀ (l : List SNV_data) (k : List Char),
        k ∈ get_all_SNV_pos l ↔ k ∈ l.map keyOf) := by
  refine ⟨?_, ?_, ?_, ?_, ?_⟩
  · intro s h
    simp [snvInit, splitC_of_not_mem h]
  · intro c p hc hp
    simp [snvInit, splitC_append_colon p hc, splitC_of_not_mem hp]
  · intro l
    exact get_all_SNV_pos_fold_nodup l [] (by simp)
  · intro l e
    simp [get_all_SNV_pos, List.foldl_append]
  · intro l k
    simpa using get_all_SNV_pos_fold_mem l [] k

/-- Claim C6 (witness): concrete instances of the amended claim — a
separator-free key errors, a well-formed key is parsed into its fields, and
registering the same key twice leaves one entry. -/
theorem claim_C6_witness :
    snvInit ['a', 'b'] = .error .indexError
    ∧ snvInit (['c'] ++ ':' :: ['7']) = .ok ⟨['c'], ['7']⟩
    ∧ (get_all_SNV_pos [(⟨['c'], ['7']⟩ : SNV_data), ⟨['c'], ['7']⟩]).Nodup
    ∧ get_all_SNV_pos ([(⟨['c'], ['7']⟩ : SNV_data)] ++ [⟨['c'], ['7']⟩]) =
        get_all_SNV_pos [(⟨['c'], ['7']⟩ : SNV_data)] := by
  refine ⟨claim_C6_amended.1 _ (by decide),
    claim_C6_amended.2.1 ['c'] ['7'] (by decide) (by decide),
    claim_C6_amended.2.2.1 _, ?_⟩
  rw [claim_C6_amended.2.2.2.1 [(⟨['c'], ['7']⟩ : SNV_data)] ⟨['c'], ['7']⟩]
  exact if_pos (by decide)

/-- Claim C3 (code evaluation at the failing input): with one covered
variant whose genotype probability is exactly 0, the likelihood loop calls
`math.log2(0)` and a domain error is raised.  No clamping into an
`[err, 1 - err]` band happens anywhere in the computation: the constant
`err = 0.01` is bound at the top of `calculate_cell_likelihood` and never
used again. -/
theorem claim_C3_code_eval :
    allVarLlhood [0] (fun _ => 1) (fun _ => 0) (fun _ => 0) = .error .domainError
    ∧ errConst = 1 / 100 := by
  refine ⟨?_, rfl⟩
  simp [allVarLlhood, l_P_c_Sv, mathLog2, Bind.bind, Except.bind]

/-- Claim C1 (code evaluation at the failing input): one barcode with full
posterior weight, alternate count 1 at variant 0 and no other reads.  The
accumulators after variant 0 are `A_sv = T_sv = 1` and are carried, not
reset, into variant 1, so the code stores `(1+1)/(1+2) = 2/3` for variant 1
although the per-(variant, cluster) sums of the claim give `(0+1)/(0+2) =
1/2` there. -/
theorem claim_C1_code_eval :
    (reestimate 2 1 ["A"] (fun _ _ => 1) (fun _ _ => 0)
        (fun v _ => if v = 0 then 1 else 0) (fun _ _ => 0)).geno 0 1 = 2 / 3
    ∧ specReestimate 2 1 ["A"] (fun _ _ => 1) (fun _ _ => 0)
        (fun v _ => if v = 0 then 1 else 0) (fun _ _ => 0) 0 1 = 1 / 2
    ∧ (2 / 3 : ℝ) ≠ 1 / 2 := by
  refine ⟨?_, ?_, by norm_num⟩
  · norm_num [reestimate, variantStep, clusterStep, accAT, List.range_succ]
  · norm_num [specReestimate]

/-- A value strictly inside the open unit interval. -/
def goodVal (x : ℝ) : Prop := 0 < x ∧ x < 1

theorem goodVal_smoothed {A T : ℝ} (hA : 0 ≤ A) (hAT : A ≤ T) :
    goodVal ((A + 1) / (T + 2)) := by
  have hT : 0 < T + 2 := by linarith
  constructor
  · exact div_pos (by linarith) hT
  · rw [div_lt_one hT]
    linarith

theorem accAT_fold_bound (P : String → ℕ → ℝ) (ref alt : ℕ → String → ℕ) (v n : ℕ) :
    ∀ (bcs : List String) (AT : ℝ × ℝ), (∀ bc ∈ bcs, 0 ≤ P bc n) →
      0 ≤ AT.1 → AT.1 ≤ AT.2 →
      0 ≤ (bcs.foldl (accAT P ref alt v n) AT).1
        ∧ (bcs.foldl (accAT P ref alt v n) AT).1 ≤ (bcs.foldl (accAT P ref alt v n) AT).2 := by
  intro bcs
  induction bcs with
  | nil => intro AT _ h1 h2; exact ⟨h1, h2⟩
  | cons bc bcs ih =>
    intro AT hP h1 h2
    rw [List.foldl_cons]
    refine ih _ (fun b hb => hP b (List.mem_cons_of_mem _ hb)) ?_ ?_
    · have hp : 0 ≤ P bc n := hP bc (List.mem_cons_self bc bcs)
      exact add_nonneg h1 (mul_nonneg hp (Nat.cast_nonneg _))
    · have hp : 0 ≤ P bc n := hP bc (List.mem_cons_self bc bcs)
      refine add_le_add h2 (mul_le_mul_of_nonneg_left ?_ hp)
      exact le_add_of_nonneg_right (Nat.cast_nonneg _)

theorem clusterStep_fold_good (bcs : List String) (P : String → ℕ → ℝ)
    (ref alt : ℕ → String → ℕ) (v : ℕ) (hP : ∀ bc ∈ bcs, ∀ n, 0 ≤ P bc n) :
    ∀ (ns : List ℕ) (st : ReEstState), 0 ≤ st.A → st.A ≤ st.T →
      (0 ≤ (ns.foldl (clusterStep bcs P ref alt v) st).A
        ∧ (ns.foldl (clusterStep bcs P ref alt v) st).A
            ≤ (ns.foldl (clusterStep bcs P ref alt v) st).T)
      ∧ (∀ m w, (ns.foldl (clusterStep bcs P ref alt v) st).geno m w = st.geno m w
          ∨ goodVal ((ns.foldl (clusterStep bcs P ref alt v) st).geno m w))
      ∧ (∀ m ∈ ns, goodVal ((ns.foldl (clusterStep bcs P ref alt v) st).geno m v)) := by
  intro ns
  induction ns with
  | nil =>
    intro st h1 h2
    exact ⟨⟨h1, h2⟩, fun m w => Or.inl rfl, by simp⟩
  | cons n ns ih =>
    intro st h1 h2
    rw [List.foldl_cons]
    have hbound := accAT_fold_bound P ref alt v n bcs (st.A, st.T)
      (fun b hb => hP b hb n) h1 h2
    have h1' : 0 ≤ (clusterStep bcs P ref alt v st n).A := hbound.1
    have h2' : (clusterStep bcs P ref alt v st n).A ≤ (clusterStep bcs P ref alt v st n).T :=
      hbound.2
    have hgood : goodVal ((clusterStep bcs P ref alt v st n).geno n v) := by
      show goodVal (if n = n ∧ v = v then _ else _)
      rw [if_pos ⟨rfl, rfl⟩]
      exact goodVal_smoothed hbound.1 hbound.2
    have hpres : ∀ m w, (clusterStep bcs P ref alt v st n).geno m w = st.geno m w
        ∨ goodVal ((clusterStep bcs P ref alt v st n).geno m w) := by
      intro m w
      show (if m = n ∧ w = v then _ else _) = st.geno m w ∨ goodVal (if m = n ∧ w = v then _ else _)
      by_cases hmw : m = n ∧ w = v
      · rw [if_pos hmw]
        exact Or.inr (goodVal_smoothed hbound.1 hbound.2)
      · rw [if_neg hmw]
        exact Or.inl rfl
    obtain ⟨ihb, ihpres, ihmem⟩ := ih (clusterStep bcs P ref alt v st n) h1' h2'
    refine ⟨ihb, ?_, ?_⟩
    · intro m w
      rcases ihpres m w with h | h
      · rw [h]
        exact hpres m w
      · exact Or.inr h
    · intro m hm
      rcases List.mem_cons.1 hm with rfl | hm
      · rcases ihpres m v with h | h
        · rw [h]; exact hgood
        · exact h
      · exact ihmem m hm

theorem variantStep_fold_good (num : ℕ) (bcs : List String) (P : String → ℕ → ℝ)
    (ref alt : ℕ → String → ℕ) (hP : ∀ bc ∈ bcs, ∀ n, 0 ≤ P bc n) :
    ∀ (vs : List ℕ) (st : ReEstState), 0 ≤ st.A → st.A ≤ st.T →
      (∀ m w, (vs.foldl (variantStep num bcs P ref alt) st).geno m w = st.geno m w
          ∨ goodVal ((vs.foldl (variantStep num bcs P ref alt) st).geno m w))
      ∧ (∀ v ∈ vs, ∀ m ∈ List.range num,
          goodVal ((vs.foldl (variantStep num bcs P ref alt) st).geno m v)) := by
  intro vs
  induction vs with
  | nil =>
    intro st h1 h2
    exact ⟨fun m w => Or.inl rfl, by simp⟩
  | cons v vs ih =>
    intro st h1 h2
    rw [List.foldl_cons]
    obtain ⟨hb, hpres, hmem⟩ := clusterStep_fold_good bcs P ref alt v hP (List.range num) st h1 h2
    obtain ⟨ihpres, ihmem⟩ := ih (variantStep num bcs P ref alt st v) hb.1 hb.2
    refine ⟨?_, ?_⟩
    · intro m w
      rcases ihpres m w with h | h
      · rw [h]
        exact hpres m w
      · exact Or.inr h
    · intro w hw m hm
      rcases List.mem_cons.1 hw with rfl | hw
      · rcases ihpres m w with h | h
        · rw [h]; exact hmem m hm
        · exact h
      · exact ihmem w hw m hm

/-- Claim C7: after every execution of the re-estimation branch, every entry
of every cluster's genotype vector lies strictly inside the open interval
(0, 1), for all (non-negative, by their type) input count matrices and all
posterior weights in [0, 1], regardless of count magnitudes. -/
theorem claim_C7_genotypes_open_interval (V num : ℕ) (bcs : List String)
    (P : String → ℕ → ℝ) (ref alt : ℕ → String → ℕ) (g0 : ℕ → ℕ → ℝ)
    (hP : ∀ bc ∈ bcs, ∀ n, 0 ≤ P bc n ∧ P bc n ≤ 1) :
    ∀ n, n < num → ∀ v, v < V →
      0 < (reestimate V num bcs P ref alt g0).geno n v
      ∧ (reestimate V num bcs P ref alt g0).geno n v < 1 := by
  intro n hn v hv
  have hP' : ∀ bc ∈ bcs, ∀ n, 0 ≤ P bc n := fun bc hb n => (hP bc hb n).1
  have := (variantStep_fold_good num bcs P ref alt hP' (List.range V)
    { A := 0, T := 0, geno := g0 } le_rfl le_rfl).2
    v (List.mem_range.mpr hv) n (List.mem_range.mpr hn)
  exact this

/-- Claim C7 (witness): a concrete run with one variant, one cluster, one
barcode of posterior weight 1/2 and one read of each kind gives a genotype
strictly between 0 and 1. -/
theorem claim_C7_witness :
    0 < (reestimate 1 1 ["A"] (fun _ _ => 1 / 2) (fun _ _ => 1) (fun _ _ => 1)
        (fun _ _ => 0)).geno 0 0
    ∧ (reestimate 1 1 ["A"] (fun _ _ => 1 / 2) (fun _ _ => 1) (fun _ _ => 1)
        (fun _ _ => 0)).geno 0 0 < 1 :=
  claim_C7_genotypes_open_interval 1 1 ["A"] (fun _ _ => 1 / 2) (fun _ _ => 1)
    (fun _ _ => 1) (fun _ _ => 0)
    (fun _ _ _ => ⟨by norm_num, by norm_num⟩) 0 (by norm_num) 0 (by norm_num)

theorem exceptBind_ok {α β : Type} {e : Except PyExn α} {f : α → Except PyExn β} {b : β}
    (h : e >>= f = .ok b) : ∃ a, e = .ok a ∧ f a = .ok b := by
  cases e with
  | ok a => exact ⟨a, rfl, h⟩
  | error err => simp [Bind.bind, Except.bind] at h

theorem mathLog2_ok {x : ℝ} (hx : 0 < x) : mathLog2 x = .ok (Real.logb 2 x) := by
  rw [mathLog2, if_pos hx]

theorem l_P_c_Sv_ok (a r : ℕ) {g : ℝ} (h1 : 0 < g) (h2 : g < 1) :
    l_P_c_Sv a r g = .ok ((a : ℝ) * Real.logb 2 g + (r : ℝ) * Real.logb 2 (1 - g)) := by
  rw [l_P_c_Sv, mathLog2_ok h1, mathLog2_ok (by linarith : 0 < 1 - g)]
  rfl

theorem allVarLlhood_fold_ok (altC refC : ℕ → ℕ) (g : ℕ → ℝ) :
    ∀ (idxs : List ℕ) (acc : ℝ), (∀ i ∈ idxs, 0 < g i ∧ g i < 1) →
      (idxs.foldlM (fun acc i => do
          let t ← l_P_c_Sv (altC i) (refC i) (g i)
          pure (acc + t)) acc : Except PyExn ℝ)
      = .ok (idxs.foldl (fun acc i =>
          acc + ((altC i : ℝ) * Real.logb 2 (g i) + (refC i : ℝ) * Real.logb 2 (1 - g i))) acc) := by
  intro idxs
  induction idxs with
  | nil => intro acc _; rfl
  | cons i idxs ih =>
    intro acc h
    have hi := h i (List.mem_cons_self i idxs)
    rw [List.foldlM_cons, l_P_c_Sv_ok (altC i) (refC i) hi.1 hi.2, List.foldl_cons]
    have hbind : ∀ (x : ℝ) (k : ℝ → Except PyExn ℝ),
        ((Except.ok x : Except PyExn ℝ) >>= k) = k x := fun x k => rfl
    show ((Except.ok _ >>= fun t => pure (acc + t) : Except PyExn ℝ) >>= _) = _
    rw [hbind]
    show (Except.ok (acc + _) : Except PyExn ℝ) >>= _ = _
    rw [hbind]
    exact ih _ (fun j hj => h j (List.mem_cons_of_mem i hj))

theorem allVarLlhood_ok (idxs : List ℕ) (altC refC : ℕ → ℕ) (g : ℕ → ℝ)
    (h : ∀ i ∈ idxs, 0 < g i ∧ g i < 1) :
    allVarLlhood idxs altC refC g
      = .ok (idxs.foldl (fun acc i =>
          acc + ((altC i : ℝ) * Real.logb 2 (g i) + (refC i : ℝ) * Real.logb 2 (1 - g i))) 0) :=
  allVarLlhood_fold_ok altC refC g idxs 0 h

theorem foldl_add_shift (f : ℕ → ℝ) :
    ∀ (l : List ℕ) (a : ℝ), l.foldl (fun acc i => acc + f i) a = a + (l.map f).sum := by
  intro l
  induction l with
  | nil => intro a; simp
  | cons i l ih =>
    intro a
    rw [List.foldl_cons, ih, List.map_cons, List.sum_cons, add_assoc]

theorem two_rpow_mul_logb (a : ℕ) {x : ℝ} (hx : 0 < x) :
    (2 : ℝ) ^ ((a : ℝ) * Real.logb 2 x) = x ^ a := by
  rw [mul_comm, Real.rpow_mul (by norm_num : (0 : ℝ) ≤ 2),
    Real.rpow_logb (by norm_num) (by norm_num) hx, Real.rpow_natCast]

theorem two_rpow_list_sum (f : ℕ → ℝ) :
    ∀ l : List ℕ, (2 : ℝ) ^ ((l.map f).sum) = (l.map (fun i => (2 : ℝ) ^ f i)).prod := by
  intro l
  induction l with
  | nil => simp [Real.rpow_zero]
  | cons i l ih =>
    rw [List.map_cons, List.sum_cons, Real.rpow_add (by norm_num : (0 : ℝ) < 2),
      List.map_cons, List.prod_cons, ih]

/-- Claim C2 (amended): for every barcode and cluster, if the genotype
probability is strictly inside (0, 1) at every covered index, the
unnormalized likelihood stored in `P_c_s` equals the product, over the
code's covered-index list, of `G^alt * (1-G)^ref` — equivalently, 2 raised
to the sum of the per-index log terms, where a variant contributes one term
for each of the two matrices (reference, alternate) in which its count is
nonzero, so a variant covered in both contributes its term twice; variants
with zero coverage in both matrices contribute nothing. -/
theorem claim_C2_stored_likelihood (V : ℕ) (ref alt : ℕ → String → ℕ)
    (G : ℕ → ℕ → ℝ) (bc : String) (n : ℕ)
    (h : ∀ i ∈ indicesOf V ref alt bc, 0 < G n i ∧ G n i < 1) :
    P_c_s_entry V ref alt G bc n =
      .ok (((indicesOf V ref alt bc).map
        (fun i => G n i ^ alt i bc * (1 - G n i) ^ ref i bc)).prod) := by
  rw [P_c_s_entry, allVarLlhood_ok _ _ _ _ h]
  show Except.ok ((2 : ℝ) ^ _) = _
  congr 1
  rw [foldl_add_shift, zero_add, two_rpow_list_sum]
  congr 1
  apply List.map_congr_left
  intro i hi
  have hgi := h i hi
  show (2 : ℝ) ^ ((alt i bc : ℝ) * Real.logb 2 (G n i)
      + (ref i bc : ℝ) * Real.logb 2 (1 - G n i)) = _
  rw [Real.rpow_add (by norm_num : (0 : ℝ) < 2), two_rpow_mul_logb _ hgi.1,
    two_rpow_mul_logb _ (by linarith [hgi.2] : (0 : ℝ) < 1 - G n i)]

/-- Claim C2 (witness): one variant covered only in the reference matrix;
the stored likelihood is the product over the single covered index. -/
theorem claim_C2_witness :
    P_c_s_entry 1 (fun _ _ => 1) (fun _ _ => 0) (fun _ _ => 1 / 2) "A" 0 =
      .ok (((indicesOf 1 (fun _ _ => 1) (fun _ _ => 0) "A").map
        (fun _ => (1 / 2 : ℝ) ^ (0 : ℕ) * (1 - 1 / 2 : ℝ) ^ (1 : ℕ))).prod) :=
  claim_C2_stored_likelihood 1 (fun _ _ => 1) (fun _ _ => 0) (fun _ _ => 1 / 2) "A" 0
    (fun _ _ => ⟨by norm_num, by norm_num⟩)

theorem logb_two_half : Real.logb 2 (1 / 2) = -1 := by
  rw [show (1 / 2 : ℝ) = 2⁻¹ by norm_num, Real.logb_inv,
    Real.logb_self_eq_one (by norm_num)]

/-- Claim C2 (counterexample): one variant, one barcode, reference and
alternate counts both 1, genotype probability 1/2.  The variant is covered,
so the claim's sum has exactly one term, `1*log2(1/2) + 1*log2(1/2) = -2`,
and the claimed value is `2^-2 = 1/4`; but the code's index list contains
the variant twice (once from each matrix), so it stores `2^-4 = 1/16`. -/
theorem claim_C2_counterexample :
    P_c_s_entry 1 (fun _ _ => 1) (fun _ _ => 1) (fun _ _ => 1 / 2) "A" 0 = .ok (1 / 16)
    ∧ (2 : ℝ) ^ (((1 : ℕ) : ℝ) * Real.logb 2 (1 / 2)
        + ((1 : ℕ) : ℝ) * Real.logb 2 (1 - 1 / 2)) = 1 / 4
    ∧ (1 / 16 : ℝ) ≠ 1 / 4 := by
  have hidx : indicesOf 1 (fun _ _ => 1) (fun _ _ => 1) "A" = [0, 0] := rfl
  refine ⟨?_, ?_, by norm_num⟩
  · rw [P_c_s_entry, hidx, allVarLlhood_ok _ _ _ _ (fun i _ => ⟨by norm_num, by norm_num⟩)]
    show Except.ok ((2 : ℝ) ^ _) = _
    congr 1
    have : (0 : ℝ) + (((1 : ℕ) : ℝ) * Real.logb 2 (1 / 2) + ((1 : ℕ) : ℝ) * Real.logb 2 (1 - 1 / 2))
        + (((1 : ℕ) : ℝ) * Real.logb 2 (1 / 2) + ((1 : ℕ) : ℝ) * Real.logb 2 (1 - 1 / 2))
        = ((-4 : ℤ) : ℝ) := by
      rw [show (1 - 1 / 2 : ℝ) = 1 / 2 by norm_num, logb_two_half]
      norm_num
    rw [List.foldl_cons, List.foldl_cons, List.foldl_nil, this, Real.rpow_intCast]
    norm_num
  · rw [show (1 - 1 / 2 : ℝ) = 1 / 2 by norm_num, logb_two_half,
      show ((1 : ℕ) : ℝ) * (-1 : ℝ) + ((1 : ℕ) : ℝ) * (-1 : ℝ) = ((-2 : ℤ) : ℝ) by norm_num,
      Real.rpow_intCast]
    norm_num

theorem upd_same (f : String → ℕ → ℝ) (b : String) (k : ℕ) (x : ℝ) :
    upd f b k x b k = x := by
  simp [upd]

theorem upd_other {b' : String} {k' : ℕ} (f : String → ℕ → ℝ) (b : String) (k : ℕ)
    (x : ℝ) (h : ¬(b' = b ∧ k' = k)) : upd f b k x b' k' = f b' k' := by
  simp only [upd, if_neg h]

theorem except_ok_inj {α : Type} {a b : α} (h : (Except.ok a : Except PyExn α) = .ok b) :
    a = b := by
  cases h
  rfl

theorem calc_rowFold_ok (V : ℕ) (ref alt : ℕ → String → ℕ) (G : ℕ → ℕ → ℝ) (bc : String) :
    ∀ (ns : List ℕ) (f g : String → ℕ → ℝ),
      (ns.foldlM (fun f n => do
          let ll ← allVarLlhood (indicesOf V ref alt bc) (fun i => alt i bc)
              (fun i => ref i bc) (fun v => G n v)
          pure (upd f bc n ((2 : ℝ) ^ ll))) f : Except PyExn (String → ℕ → ℝ)) = .ok g →
      (∀ n ∈ ns, P_c_s_entry V ref alt G bc n = .ok (g bc n))
      ∧ (∀ b k, (b ≠ bc ∨ k ∉ ns) → g b k = f b k) := by
  intro ns
  induction ns with
  | nil =>
    intro f g h
    have hg : f = g := except_ok_inj h
    subst hg
    exact ⟨by simp, fun b k _ => rfl⟩
  | cons n ns ih =>
    intro f g h
    rw [List.foldlM_cons] at h
    obtain ⟨f1, hf1, hrest⟩ := exceptBind_ok h
    obtain ⟨ll, hll, hpure⟩ := exceptBind_ok hf1
    have hf1eq : f1 = upd f bc n ((2 : ℝ) ^ ll) := (except_ok_inj hpure).symm
    subst hf1eq
    obtain ⟨ih1, ih2⟩ := ih _ g hrest
    constructor
    · intro m hm
      rcases List.mem_cons.1 hm with rfl | hm
      · by_cases hmem : m ∈ ns
        · exact ih1 m hmem
        · have hgk : g bc m = upd f bc m ((2 : ℝ) ^ ll) bc m := ih2 bc m (Or.inr hmem)
          rw [hgk, upd_same, P_c_s_entry, hll]
          rfl
      · exact ih1 m hm
    · intro b k hk
      have hk' : b ≠ bc ∨ k ∉ ns := by
        rcases hk with h | h
        · exact Or.inl h
        · exact Or.inr (fun hm => h (List.mem_cons_of_mem _ hm))
      rw [ih2 b k hk']
      rcases hk with h | h
      · exact upd_other _ _ _ _ (fun hc => h hc.1)
      · exact upd_other _ _ _ _ (fun hc => h (hc.2 ▸ List.mem_cons_self n ns))

theorem calcStep_ok {V num : ℕ} {ref alt : ℕ → String → ℕ} {G : ℕ → ℕ → ℝ}
    {st st' : CellLikeState} {bc : String}
    (h : calcStep V num ref alt G st bc = .ok st') :
    (∀ n, n < num → P_c_s_entry V ref alt G bc n = .ok (st'.P_c_s bc n))
    ∧ (∀ b k, (b ≠ bc ∨ ¬k < num) → st'.P_c_s b k = st.P_c_s b k)
    ∧ st'.P_s_c = normalizeRows num st'.P_c_s := by
  rw [calcStep] at h
  obtain ⟨Pcs, hfold, hpure⟩ := exceptBind_ok h
  have hst' : st' = ⟨Pcs, normalizeRows num Pcs⟩ := (except_ok_inj hpure).symm
  subst hst'
  obtain ⟨h1, h2⟩ := calc_rowFold_ok V ref alt G bc (List.range num) st.P_c_s Pcs hfold
  exact ⟨fun n hn => h1 n (List.mem_range.mpr hn),
    fun b k hk => h2 b k (by simpa [List.mem_range] using hk),
    rfl⟩

theorem calc_preserve {V num : ℕ} {ref alt : ℕ → String → ℕ} {G : ℕ → ℕ → ℝ} :
    ∀ (bcs : List String) (st st' : CellLikeState),
      calculate_cell_likelihood V num bcs ref alt G st = .ok st' →
      ∀ b, b ∉ bcs → ∀ k, st'.P_c_s b k = st.P_c_s b k := by
  intro bcs
  induction bcs with
  | nil =>
    intro st st' h b _ k
    rw [(except_ok_inj h : st = st')]
  | cons bc rest ih =>
    intro st st' h b hb k
    rw [calculate_cell_likelihood, List.foldlM_cons] at h
    obtain ⟨st1, hst1, hrest⟩ := exceptBind_ok h
    have hbne : b ≠ bc := fun hc => hb (hc ▸ List.mem_cons_self bc rest)
    have hbrest : b ∉ rest := fun hc => hb (List.mem_cons_of_mem _ hc)
    rw [ih st1 st' hrest b hbrest k, (calcStep_ok hst1).2.1 b k (Or.inl hbne)]

theorem calc_main {V num : ℕ} {ref alt : ℕ → String → ℕ} {G : ℕ → ℕ → ℝ} :
    ∀ (bcs : List String) (st st' : CellLikeState),
      calculate_cell_likelihood V num bcs ref alt G st = .ok st' →
      (∀ b ∈ bcs, ∀ n, n < num → P_c_s_entry V ref alt G b n = .ok (st'.P_c_s b n))
      ∧ (bcs ≠ [] → st'.P_s_c = normalizeRows num st'.P_c_s) := by
  intro bcs
  induction bcs with
  | nil =>
    intro st st' h
    exact ⟨by simp, fun hne => absurd rfl hne⟩
  | cons bc rest ih =>
    intro st st' h
    rw [calculate_cell_likelihood, List.foldlM_cons] at h
    obtain ⟨st1, hst1, hrest⟩ := exceptBind_ok h
    obtain ⟨ih1, ih2⟩ := ih st1 st' hrest
    constructor
    · intro b hb n hn
      rcases List.mem_cons.1 hb with rfl | hb
      · by_cases hmem : b ∈ rest
        · exact ih1 b hmem n hn
        · rw [calc_preserve rest st1 st' hrest b hmem n]
          exact (calcStep_ok hst1).1 n hn
      · exact ih1 b hb n hn
    · intro _
      cases hr : rest with
      | nil =>
        subst hr
        have : st1 = st' := except_ok_inj hrest
        subst this
        exact (calcStep_ok hst1).2.2
      | cons x xs =>
        exact ih2 (by simp [hr])

theorem entry_pos {V : ℕ} {ref alt : ℕ → String → ℕ} {G : ℕ → ℕ → ℝ} {bc : String}
    {n : ℕ} {v : ℝ} (h : P_c_s_entry V ref alt G bc n = .ok v) : 0 < v := by
  rw [P_c_s_entry] at h
  cases he : allVarLlhood (indicesOf V ref alt bc) (fun i => alt i bc)
      (fun i => ref i bc) (fun v => G n v) with
  | ok w =>
    rw [he] at h
    have : (2 : ℝ) ^ w = v := except_ok_inj h
    rw [← this]
    exact Real.rpow_pos_of_pos (by norm_num) w
  | error e =>
    rw [he] at h
    exact absurd h (by simp [Except.map])

theorem isOkB_exists {ε α : Type} {e : Except ε α} (h : isOkB e = true) :
    ∃ a, e = .ok a := by
  cases e with
  | ok a => exact ⟨a, rfl⟩
  | error err => simp [isOkB] at h

theorem getOk_ok {ε α : Type} {e : Except ε α} {a : α} (d : α) (h : e = .ok a) :
    getOk e d = a := by
  rw [h]
  rfl

theorem foldlM_ok_all {α β : Type} (step : β → α → Except PyExn β) :
    ∀ (l : List α) (b : β), (∀ a ∈ l, ∀ x : β, ∃ y, step x a = .ok y) →
      ∃ c, l.foldlM step b = .ok c := by
  intro l
  induction l with
  | nil => intro b _; exact ⟨b, rfl⟩
  | cons a l ih =>
    intro b h
    obtain ⟨b1, hb1⟩ := h a (List.mem_cons_self a l) b
    obtain ⟨c, hc⟩ := ih b1 (fun x hx y => h x (List.mem_cons_of_mem _ hx) y)
    refine ⟨c, ?_⟩
    rw [List.foldlM_cons, hb1]
    exact hc

theorem calcStep_ok_of {V num : ℕ} {ref alt : ℕ → String → ℕ} {G : ℕ → ℕ → ℝ}
    (bc : String) (h : ∀ n, n < num → ∀ i ∈ indicesOf V ref alt bc, 0 < G n i ∧ G n i < 1) :
    ∀ st : CellLikeState, ∃ st', calcStep V num ref alt G st bc = .ok st' := by
  intro st
  obtain ⟨g, hg⟩ := foldlM_ok_all
    (fun f n => do
      let ll ← allVarLlhood (indicesOf V ref alt bc) (fun i => alt i bc)
          (fun i => ref i bc) (fun v => G n v)
      pure (upd f bc n ((2 : ℝ) ^ ll)))
    (List.range num) st.P_c_s
    (fun n hn f => by
      show ∃ y, (do
          let ll ← allVarLlhood (indicesOf V ref alt bc) (fun i => alt i bc)
              (fun i => ref i bc) (fun v => G n v)
          pure (upd f bc n ((2 : ℝ) ^ ll)) : Except PyExn (String → ℕ → ℝ)) = .ok y
      rw [allVarLlhood_ok _ _ _ _ (h n (List.mem_range.mp hn))]
      exact ⟨_, rfl⟩)
  refine ⟨⟨g, normalizeRows num g⟩, ?_⟩
  rw [calcStep, hg]
  rfl

theorem calc_ok_of {V num : ℕ} {ref alt : ℕ → String → ℕ} {G : ℕ → ℕ → ℝ}
    (bcs : List String)
    (h : ∀ bc ∈ bcs, ∀ n, n < num → ∀ i ∈ indicesOf V ref alt bc, 0 < G n i ∧ G n i < 1) :
    ∀ st0 : CellLikeState, ∃ st', calculate_cell_likelihood V num bcs ref alt G st0 = .ok st' := by
  intro st0
  exact foldlM_ok_all (calcStep V num ref alt G) bcs st0
    (fun bc hbc st => calcStep_ok_of bc (h bc hbc) st)

/-- Claim C8: after every (successful) execution of
`calculate_cell_likelihood`, for every barcode of the run with at least one
covered variant, the corresponding row of the posterior matrix `P_s_c` sums
to 1 exactly, the row being the likelihood row divided by its sum under
equal cluster priors. -/
theorem claim_C8_posterior_row_sums (V num : ℕ) (bcs : List String)
    (ref alt : ℕ → String → ℕ) (G : ℕ → ℕ → ℝ) (st0 : CellLikeState) (bc : String)
    (hnum : 0 < num) (hbc : bc ∈ bcs) (hcov : indicesOf V ref alt bc ≠ [])
    (hok : isOkB (calculate_cell_likelihood V num bcs ref alt G st0) = true) :
    ∑ n ∈ Finset.range num,
      (getOk (calculate_cell_likelihood V num bcs ref alt G st0) zeroState).P_s_c bc n
      = 1 := by
  obtain ⟨st', hst⟩ := isOkB_exists hok
  rw [getOk_ok zeroState hst]
  obtain ⟨hentry, hnorm⟩ := calc_main bcs st0 st' hst
  have hne : bcs ≠ [] := fun hc => by simp [hc] at hbc
  rw [hnorm hne]
  have hpos : ∀ n ∈ Finset.range num, 0 < st'.P_c_s bc n := fun n hn =>
    entry_pos (hentry bc hbc n (Finset.mem_range.mp hn))
  have hS : 0 < ∑ m ∈ Finset.range num, st'.P_c_s bc m :=
    Finset.sum_pos hpos (Finset.nonempty_range_iff.mpr hnum.ne')
  show ∑ n ∈ Finset.range num,
      st'.P_c_s bc n / ∑ m ∈ Finset.range num, st'.P_c_s bc m = 1
  rw [← Finset.sum_div, div_self hS.ne']

/-- Claim C8 (witness): one variant covered by the single barcode (one
reference read), one cluster, genotype probability 1/2; the posterior row
of that barcode sums to 1. -/
theorem claim_C8_witness :
    ∑ n ∈ Finset.range 1,
      (getOk (calculate_cell_likelihood 1 1 ["A"] (fun _ _ => 1) (fun _ _ => 0)
        (fun _ _ => 1 / 2) zeroState) zeroState).P_s_c "A" n = 1 :=
  claim_C8_posterior_row_sums 1 1 ["A"] (fun _ _ => 1) (fun _ _ => 0)
    (fun _ _ => 1 / 2) zeroState "A" (by norm_num) (by simp) (by decide)
    (by
      obtain ⟨st', hst⟩ := @calc_ok_of 1 1 (fun _ _ => 1) (fun _ _ => 0)
        (fun _ _ => 1 / 2) ["A"]
        (fun _ _ _ _ _ _ => ⟨by norm_num, by norm_num⟩) zeroState
      rw [hst]
      rfl)

theorem rowMax_one (row : ℕ → ℝ) : rowMax 1 row = row 0 := by
  show (List.range 1).foldl (fun m k => max m (row k)) (row 0) = row 0
  rw [List.range_succ, List.range_zero, List.nil_append, List.foldl_cons,
    List.foldl_nil, max_self]

theorem rowMax_succ_succ (n : ℕ) (row : ℕ → ℝ) :
    rowMax (n + 2) row = max (rowMax (n + 1) row) (row (n + 1)) := by
  show (List.range (n + 2)).foldl (fun m k => max m (row k)) (row 0) = _
  rw [List.range_succ, List.foldl_append, List.foldl_cons, List.foldl_nil]
  rfl

theorem rowMax_le (row : ℕ → ℝ) : ∀ num : ℕ, ∀ m, m < num → row m ≤ rowMax num row := by
  intro num
  induction num with
  | zero => intro m hm; exact absurd hm (Nat.not_lt_zero m)
  | succ n ih =>
    intro m hm
    cases n with
    | zero =>
      interval_cases m
      rw [rowMax_one]
    | succ k =>
      rw [rowMax_succ_succ]
      rcases Nat.lt_succ_iff_lt_or_eq.1 hm with h | rfl
      · exact le_trans (ih m h) (le_max_left _ _)
      · exact le_max_right _ _

theorem rowMax_attained (row : ℕ → ℝ) :
    ∀ num : ℕ, 0 < num → ∃ m, m < num ∧ rowMax num row = row m := by
  intro num
  induction num with
  | zero => intro h; exact absurd h (lt_irrefl 0)
  | succ n ih =>
    intro _
    cases n with
    | zero => exact ⟨0, Nat.one_pos, rowMax_one row⟩
    | succ k =>
      obtain ⟨m, hm, hval⟩ := ih (Nat.succ_pos k)
      rw [rowMax_succ_succ]
      rcases le_total (rowMax (k + 1) row) (row (k + 1)) with h | h
      · exact ⟨k + 1, Nat.lt_succ_self _, max_eq_right h⟩
      · exact ⟨m, Nat.lt_succ_of_lt hm, (max_eq_left h).trans hval⟩

theorem rowMax_congr {num : ℕ} {row row' : ℕ → ℝ} (h : ∀ m, m < num → row m = row' m) :
    rowMax num row = rowMax num row' := by
  induction num with
  | zero => rfl
  | succ n ih =>
    cases n with
    | zero => rw [rowMax_one, rowMax_one, h 0 Nat.one_pos]
    | succ k =>
      rw [rowMax_succ_succ, rowMax_succ_succ,
        ih (fun m hm => h m (Nat.lt_succ_of_lt hm)), h (k + 1) (Nat.lt_succ_self _)]

theorem rowMax_const {num : ℕ} {row : ℕ → ℝ} {c : ℝ} (hnum : 0 < num)
    (h : ∀ m, m < num → row m = c) : rowMax num row = c := by
  obtain ⟨m, hm, hval⟩ := rowMax_attained row num hnum
  rw [hval, h m hm]

theorem idxmax_succ (n : ℕ) (row : ℕ → ℝ) :
    idxmaxRow (n + 1) row =
      if row (idxmaxRow n row) < row n then n else idxmaxRow n row := by
  show (List.range (n + 1)).foldl (fun best k => if row best < row k then k else best) 0 = _
  rw [List.range_succ, List.foldl_append, List.foldl_cons, List.foldl_nil]
  rfl

theorem idxmax_spec (row : ℕ → ℝ) :
    ∀ num : ℕ, 0 < num →
      idxmaxRow num row < num
      ∧ (∀ m, m < num → row m ≤ row (idxmaxRow num row))
      ∧ (∀ m, m < idxmaxRow num row → row m < row (idxmaxRow num row)) := by
  intro num
  induction num with
  | zero => intro h; exact absurd h (lt_irrefl 0)
  | succ n ih =>
    intro _
    cases n with
    | zero =>
      have h1 : idxmaxRow 1 row = 0 := by
        rw [idxmax_succ]
        show (if row (idxmaxRow 0 row) < row 0 then 0 else idxmaxRow 0 row) = 0
        have h0 : idxmaxRow 0 row = 0 := rfl
        rw [h0, if_neg (lt_irrefl (row 0))]
      refine ⟨by rw [h1]; exact Nat.one_pos, ?_, ?_⟩
      · intro m hm
        interval_cases m
        rw [h1]
      · intro m hm
        rw [h1] at hm
        exact absurd hm (Nat.not_lt_zero m)
    | succ k =>
      obtain ⟨ih1, ih2, ih3⟩ := ih (Nat.succ_pos k)
      rw [idxmax_succ]
      by_cases hcmp : row (idxmaxRow (k + 1) row) < row (k + 1)
      · rw [if_pos hcmp]
        refine ⟨Nat.lt_succ_self _, ?_, ?_⟩
        · intro m hm
          rcases Nat.lt_succ_iff_lt_or_eq.1 hm with h | rfl
          · exact le_of_lt (lt_of_le_of_lt (ih2 m h) hcmp)
          · exact le_refl _
        · intro m hm
          exact lt_of_le_of_lt (ih2 m hm) hcmp
      · rw [if_neg hcmp]
        refine ⟨Nat.lt_succ_of_lt ih1, ?_, ih3⟩
        intro m hm
        rcases Nat.lt_succ_iff_lt_or_eq.1 hm with h | rfl
        · exact ih2 m h
        · exact not_lt.mp hcmp

theorem idxmax_const {num : ℕ} {row : ℕ → ℝ} {c : ℝ} (hnum : 0 < num)
    (h : ∀ m, m < num → row m = c) : idxmaxRow num row = 0 := by
  obtain ⟨h1, _, h3⟩ := idxmax_spec row num hnum
  by_contra hne
  have h0 : 0 < idxmaxRow num row := Nat.pos_of_ne_zero hne
  have := h3 0 h0
  rw [h 0 hnum, h (idxmaxRow num row) h1] at this
  exact lt_irrefl c this

theorem rowMax_eq_idxmax {num : ℕ} (row : ℕ → ℝ) (hnum : 0 < num) :
    rowMax num row = row (idxmaxRow num row) := by
  obtain ⟨hlt, hle, _⟩ := idxmax_spec row num hnum
  obtain ⟨m, hm, hval⟩ := rowMax_attained row num hnum
  exact le_antisymm (hval ▸ hle m hm) (rowMax_le row num _ hlt)

theorem assign_loop_mem (P : String → ℕ → ℝ) (num : ℕ) :
    ∀ (bcs : List String) (asg : ℕ → List String) (n : ℕ) (b : String),
      (b ∈ (bcs.foldl (fun asg bc =>
          if (0.8 : ℝ) ≤ rowMax num (P bc) then
            (fun m => if m = idxmaxRow num (P bc) then asg m ++ [bc] else asg m)
          else asg) asg) n
        ↔ b ∈ asg n
          ∨ (b ∈ bcs ∧ (0.8 : ℝ) ≤ rowMax num (P b) ∧ n = idxmaxRow num (P b))) := by
  intro bcs
  induction bcs with
  | nil => intro asg n b; simp
  | cons bc bcs ih =>
    intro asg n b
    rw [List.foldl_cons, ih]
    by_cases hb : (0.8 : ℝ) ≤ rowMax num (P bc)
    · rw [if_pos hb]
      by_cases hn : n = idxmaxRow num (P bc)
      · show b ∈ (if n = idxmaxRow num (P bc) then asg n ++ [bc] else asg n) ∨ _ ↔ _
        rw [if_pos hn]
        constructor
        · rintro (hmem | ⟨hbs, hC⟩)
          · rcases List.mem_append.1 hmem with h | h
            · exact Or.inl h
            · have hbbc : b = bc := by simpa using h
              subst hbbc
              exact Or.inr ⟨List.mem_cons_self b bcs, hb, hn⟩
          · exact Or.inr ⟨List.mem_cons_of_mem _ hbs, hC⟩
        · rintro (hmem | ⟨hbs, hC⟩)
          · exact Or.inl (List.mem_append.2 (Or.inl hmem))
          · rcases List.mem_cons.1 hbs with rfl | hbs
            · exact Or.inl (List.mem_append.2 (Or.inr (by simp)))
            · exact Or.inr ⟨hbs, hC⟩
      · show b ∈ (if n = idxmaxRow num (P bc) then asg n ++ [bc] else asg n) ∨ _ ↔ _
        rw [if_neg hn]
        constructor
        · rintro (hmem | ⟨hbs, hC⟩)
          · exact Or.inl hmem
          · exact Or.inr ⟨List.mem_cons_of_mem _ hbs, hC⟩
        · rintro (hmem | ⟨hbs, hC⟩)
          · exact Or.inl hmem
          · rcases List.mem_cons.1 hbs with rfl | hbs
            · exact absurd hC.2 hn
            · exact Or.inr ⟨hbs, hC⟩
    · rw [if_neg hb]
      constructor
      · rintro (hmem | ⟨hbs, hC⟩)
        · exact Or.inl hmem
        · exact Or.inr ⟨List.mem_cons_of_mem _ hbs, hC⟩
      · rintro (hmem | ⟨hbs, hC⟩)
        · exact Or.inl hmem
        · rcases List.mem_cons.1 hbs with rfl | hbs
          · exact absurd hC.1 hb
          · exact Or.inr ⟨hbs, hC⟩

theorem assign_cells_mem (bcs : List String) (P : String → ℕ → ℝ) (num : ℕ)
    (n : ℕ) (b : String) :
    b ∈ assign_cells bcs P num (fun _ => []) n ↔
      b ∈ bcs ∧ (0.8 : ℝ) ≤ rowMax num (P b) ∧ n = idxmaxRow num (P b) := by
  simp only [assign_cells]
  by_cases hn : n < num
  · rw [if_pos hn, List.mem_insertionSort, assign_loop_mem]
    simp
  · rw [if_neg hn, assign_loop_mem]
    simp

theorem assign_cells_sorted (bcs : List String) (P : String → ℕ → ℝ) (num : ℕ)
    (n : ℕ) (hn : n < num) :
    List.Sorted (· ≤ ·) (assign_cells bcs P num (fun _ => []) n) := by
  simp only [assign_cells]
  rw [if_pos hn]
  exact List.sorted_insertionSort _ _

/-- Claim C9: `assign_cells` places each barcode of the run whose maximum
posterior is at least 0.8 into the bucket of its `idxmax` cluster — a
cluster attaining that maximum — and into that bucket only, places every
other barcode in no bucket, keeps the buckets pairwise disjoint, and sorts
each bucket's barcode list in ascending lexicographic order. -/
theorem claim_C9_assignment (bcs : List String) (P : String → ℕ → ℝ) (num : ℕ) :
    (∀ b, b ∈ bcs → (0.8 : ℝ) ≤ rowMax num (P b) →
        b ∈ assign_cells bcs P num (fun _ => []) (idxmaxRow num (P b)))
    ∧ (∀ n b, b ∈ assign_cells bcs P num (fun _ => []) n →
        n < num ∧ (0.8 : ℝ) ≤ rowMax num (P b) ∧ n = idxmaxRow num (P b)
          ∧ P b n = rowMax num (P b))
    ∧ (∀ b, rowMax num (P b) < 0.8 → ∀ n, b ∉ assign_cells bcs P num (fun _ => []) n)
    ∧ (∀ n m b, b ∈ assign_cells bcs P num (fun _ => []) n →
        b ∈ assign_cells bcs P num (fun _ => []) m → n = m)
    ∧ (∀ n, n < num → List.Sorted (· ≤ ·) (assign_cells bcs P num (fun _ => []) n)) := by
  refine ⟨?_, ?_, ?_, ?_, fun n hn => assign_cells_sorted bcs P num n hn⟩
  · intro b hb hthr
    exact (assign_cells_mem bcs P num (idxmaxRow num (P b)) b).2 ⟨hb, hthr, rfl⟩
  · intro n b hmem
    obtain ⟨_, hthr, hidx⟩ := (assign_cells_mem bcs P num n b).1 hmem
    have hnum : 0 < num := by
      rcases Nat.eq_zero_or_pos num with rfl | h
      · exact absurd hthr (by norm_num [rowMax])
      · exact h
    obtain ⟨hlt, _, _⟩ := idxmax_spec (P b) num hnum
    refine ⟨hidx ▸ hlt, hthr, hidx, ?_⟩
    rw [hidx, ← rowMax_eq_idxmax (P b) hnum]
  · intro b hb n hmem
    exact absurd ((assign_cells_mem bcs P num n b).1 hmem).2.1 (not_le.mpr hb)
  · intro n m b hn hm
    rw [((assign_cells_mem bcs P num n b).1 hn).2.2,
      ((assign_cells_mem bcs P num m b).1 hm).2.2]

/-- Claim C9 (witness): an above-threshold barcode (posterior row 1) is
placed into the bucket of its idxmax cluster, that bucket attains the
maximum and is sorted, and a barcode with maximum posterior 0 is in no
bucket. -/
theorem claim_C9_witness :
    "A" ∈ assign_cells ["A"] (fun _ _ => (1 : ℝ)) 1 (fun _ => [])
        (idxmaxRow 1 ((fun (_ : String) (_ : ℕ) => (1 : ℝ)) "A"))
    ∧ ((0 : ℕ) < 1 ∧ (0.8 : ℝ) ≤ rowMax 1 ((fun (_ : String) (_ : ℕ) => (1 : ℝ)) "A")
      ∧ 0 = idxmaxRow 1 ((fun (_ : String) (_ : ℕ) => (1 : ℝ)) "A")
      ∧ (fun (_ : String) (_ : ℕ) => (1 : ℝ)) "A" 0
          = rowMax 1 ((fun (_ : String) (_ : ℕ) => (1 : ℝ)) "A"))
    ∧ "B" ∉ assign_cells ["A"] (fun _ _ => (0 : ℝ)) 1 (fun _ => []) 0 := by
  refine ⟨?_, ?_, ?_⟩
  · refine (claim_C9_assignment ["A"] (fun _ _ => (1 : ℝ)) 1).1 "A" (by simp) ?_
    rw [rowMax_one]
    norm_num
  · refine (claim_C9_assignment ["A"] (fun _ _ => (1 : ℝ)) 1).2.1 0 "A" ?_
    refine (assign_cells_mem ["A"] (fun _ _ => (1 : ℝ)) 1 0 "A").2 ⟨by simp, ?_, ?_⟩
    · rw [rowMax_one]
      norm_num
    · exact (idxmax_const Nat.one_pos (fun m _ => rfl)).symm
  · refine (claim_C9_assignment ["A"] (fun _ _ => (0 : ℝ)) 1).2.2.1 "B" ?_ 0
    rw [rowMax_one]
    norm_num

theorem indicesOf_eq_nil {V : ℕ} {ref alt : ℕ → String → ℕ} {bc : String}
    (h : ∀ v, v < V → ref v bc = 0 ∧ alt v bc = 0) :
    indicesOf V ref alt bc = [] := by
  rw [indicesOf, nonzeroIdx, nonzeroIdx, List.append_eq_nil]
  constructor <;>
  · rw [List.filter_eq_nil_iff]
    intro a ha
    have hv := h a (List.mem_range.mp ha)
    simp [hv.1, hv.2]

theorem P_c_s_entry_nil {V : ℕ} {ref alt : ℕ → String → ℕ} {G : ℕ → ℕ → ℝ}
    {bc : String} (n : ℕ) (h : indicesOf V ref alt bc = []) :
    P_c_s_entry V ref alt G bc n = .ok 1 := by
  rw [P_c_s_entry, h]
  show Except.ok ((2 : ℝ) ^ (0 : ℝ)) = Except.ok 1
  rw [Real.rpow_zero]

theorem calc_zero_cov {V num : ℕ} {ref alt : ℕ → String → ℕ} {G : ℕ → ℕ → ℝ}
    {bcs : List String} {st0 st' : CellLikeState} {bc : String}
    (h : calculate_cell_likelihood V num bcs ref alt G st0 = .ok st')
    (hbc : bc ∈ bcs) (hnil : indicesOf V ref alt bc = []) (hnum : 0 < num) :
    (∀ n, n < num → st'.P_c_s bc n = 1)
    ∧ (∀ n, n < num → st'.P_s_c bc n = 1 / (num : ℝ)) := by
  obtain ⟨hentry, hnorm⟩ := calc_main bcs st0 st' h
  have hone : ∀ n, n < num → st'.P_c_s bc n = 1 := by
    intro n hn
    have h1 := hentry bc hbc n hn
    rw [P_c_s_entry_nil n hnil] at h1
    exact (except_ok_inj h1).symm
  refine ⟨hone, ?_⟩
  intro n hn
  have hne : bcs ≠ [] := fun hc => by simp [hc] at hbc
  rw [hnorm hne]
  show st'.P_c_s bc n / ∑ m ∈ Finset.range num, st'.P_c_s bc m = 1 / (num : ℝ)
  rw [hone n hn]
  congr 1
  rw [Finset.sum_congr rfl (fun m hm => hone m (Finset.mem_range.mp hm)),
    Finset.sum_const, Finset.card_range, nsmul_eq_mul, mul_one]

/-- Claim C10: for a barcode with zero coverage at every variant, a
successful `calculate_cell_likelihood` stores an unnormalized likelihood of
exactly 1 (2 to the power 0) for every cluster, so its posterior row is the
uniform vector 1/K; consequently such a barcode lands in a bucket (namely
bucket 0, the lowest-indexed of the tied clusters) precisely when
1/K ≥ 0.8, and in general `idxmax` resolves ties in the maximum posterior
to the lowest-indexed cluster. -/
theorem claim_C10_zero_coverage_row (V num : ℕ) (bcs : List String)
    (ref alt : ℕ → String → ℕ) (G : ℕ → ℕ → ℝ) (st0 : CellLikeState) (bc : String)
    (hnum : 0 < num) (hbc : bc ∈ bcs)
    (hzero : ∀ v, v < V → ref v bc = 0 ∧ alt v bc = 0)
    (hok : isOkB (calculate_cell_likelihood V num bcs ref alt G st0) = true) :
    (∀ n, n < num →
      (getOk (calculate_cell_likelihood V num bcs ref alt G st0) zeroState).P_c_s bc n = 1)
    ∧ (∀ n, n < num →
      (getOk (calculate_cell_likelihood V num bcs ref alt G st0) zeroState).P_s_c bc n
        = 1 / (num : ℝ))
    ∧ ((0.8 : ℝ) ≤ 1 / (num : ℝ) →
      bc ∈ assign_cells bcs
        (getOk (calculate_cell_likelihood V num bcs ref alt G st0) zeroState).P_s_c
        num (fun _ => []) 0)
    ∧ (¬(0.8 : ℝ) ≤ 1 / (num : ℝ) →
      ∀ n, bc ∉ assign_cells bcs
        (getOk (calculate_cell_likelihood V num bcs ref alt G st0) zeroState).P_s_c
        num (fun _ => []) n)
    ∧ (∀ (k : ℕ) (row : ℕ → ℝ), 0 < k →
        idxmaxRow k row < k
        ∧ (∀ m, m < k → row m ≤ row (idxmaxRow k row))
        ∧ (∀ m, m < k → row m = row (idxmaxRow k row) → idxmaxRow k row ≤ m)) := by
  obtain ⟨st', hst⟩ := isOkB_exists hok
  rw [getOk_ok zeroState hst]
  have hnil : indicesOf V ref alt bc = [] := indicesOf_eq_nil hzero
  obtain ⟨hone, hunif⟩ := calc_zero_cov hst hbc hnil hnum
  have hmax : rowMax num (st'.P_s_c bc) = 1 / (num : ℝ) := rowMax_const hnum hunif
  have hidx : idxmaxRow num (st'.P_s_c bc) = 0 := idxmax_const hnum hunif
  refine ⟨hone, hunif, ?_, ?_, ?_⟩
  · intro hthr
    exact (assign_cells_mem bcs st'.P_s_c num 0 bc).2 ⟨hbc, hmax ▸ hthr, hidx.symm⟩
  · intro hthr n hmem
    exact hthr (hmax ▸ ((assign_cells_mem bcs st'.P_s_c num n bc).1 hmem).2.1)
  · intro k row hk
    obtain ⟨h1, h2, h3⟩ := idxmax_spec row k hk
    refine ⟨h1, h2, ?_⟩
    intro m _ heq
    by_contra hlt
    exact absurd heq (ne_of_lt (h3 m (not_le.mp hlt)))

/-- Claim C10 (witness): one cluster, one variant, a barcode with no reads
anywhere: the stored likelihood is 1, the posterior is 1/1, the barcode is
assigned (1/1 ≥ 0.8) to bucket 0, and idxmax lands inside the range. -/
theorem claim_C10_witness :
    (getOk (calculate_cell_likelihood 1 1 ["A"] (fun _ _ => 0) (fun _ _ => 0)
        (fun _ _ => 1 / 2) zeroState) zeroState).P_c_s "A" 0 = 1
    ∧ (getOk (calculate_cell_likelihood 1 1 ["A"] (fun _ _ => 0) (fun _ _ => 0)
        (fun _ _ => 1 / 2) zeroState) zeroState).P_s_c "A" 0 = 1 / ((1 : ℕ) : ℝ)
    ∧ "A" ∈ assign_cells ["A"]
        (getOk (calculate_cell_likelihood 1 1 ["A"] (fun _ _ => 0) (fun _ _ => 0)
          (fun _ _ => 1 / 2) zeroState) zeroState).P_s_c 1 (fun _ => []) 0
    ∧ idxmaxRow 1 (fun _ => (0 : ℝ)) < 1 := by
  have hok : isOkB (calculate_cell_likelihood 1 1 ["A"] (fun _ _ => 0) (fun _ _ => 0)
      (fun _ _ => 1 / 2) zeroState) = true := by
    obtain ⟨st', hst⟩ := @calc_ok_of 1 1 (fun _ _ => 0) (fun _ _ => 0)
      (fun _ _ => 1 / 2) ["A"] (fun _ _ _ _ _ _ => ⟨by norm_num, by norm_num⟩) zeroState
    rw [hst]
    rfl
  have h := claim_C10_zero_coverage_row 1 1 ["A"] (fun _ _ => 0) (fun _ _ => 0)
    (fun _ _ => 1 / 2) zeroState "A" Nat.one_pos (by simp)
    (fun _ _ => ⟨rfl, rfl⟩) hok
  exact ⟨h.1 0 Nat.one_pos, h.2.1 0 Nat.one_pos,
    h.2.2.1 (by norm_num), (h.2.2.2.2 1 (fun _ => (0 : ℝ)) Nat.one_pos).1⟩

/-- Claim C5 (amended): for a barcode with zero reference and zero
alternate coverage at every variant, the likelihood computation for that
barcode is defined for every cluster (it stores exactly 1; no exception
arises from this barcode) and its normalized posterior row is the defined
uniform vector 1/K; and whenever K ≥ 2 the barcode appears in none of the
K assignment buckets after `assign_cells`. -/
theorem claim_C5_degenerate_barcode (V num : ℕ) (bcs : List String)
    (ref alt : ℕ → String → ℕ) (G : ℕ → ℕ → ℝ) (st0 : CellLikeState) (bc : String)
    (hnum : 2 ≤ num) (hbc : bc ∈ bcs)
    (hzero : ∀ v, v < V → ref v bc = 0 ∧ alt v bc = 0)
    (hok : isOkB (calculate_cell_likelihood V num bcs ref alt G st0) = true) :
    (∀ n : ℕ, P_c_s_entry V ref alt G bc n = .ok 1)
    ∧ (∀ n, n < num →
      (getOk (calculate_cell_likelihood V num bcs ref alt G st0) zeroState).P_s_c bc n
        = 1 / (num : ℝ))
    ∧ (∀ n, bc ∉ assign_cells bcs
        (getOk (calculate_cell_likelihood V num bcs ref alt G st0) zeroState).P_s_c
        num (fun _ => []) n) := by
  obtain ⟨st', hst⟩ := isOkB_exists hok
  rw [getOk_ok zeroState hst]
  have hnum0 : 0 < num := lt_of_lt_of_le Nat.zero_lt_two hnum
  have hnil : indicesOf V ref alt bc = [] := indicesOf_eq_nil hzero
  obtain ⟨_, hunif⟩ := calc_zero_cov hst hbc hnil hnum0
  have hmax : rowMax num (st'.P_s_c bc) = 1 / (num : ℝ) := rowMax_const hnum0 hunif
  refine ⟨fun n => P_c_s_entry_nil n hnil, hunif, ?_⟩
  intro n hmem
  have hthr : (0.8 : ℝ) ≤ 1 / (num : ℝ) :=
    hmax ▸ ((assign_cells_mem bcs st'.P_s_c num n bc).1 hmem).2.1
  have h2 : (2 : ℝ) ≤ (num : ℝ) := by exact_mod_cast hnum
  have hhalf : 1 / (num : ℝ) ≤ 1 / 2 := one_div_le_one_div_of_le two_pos h2
  linarith

/-- Claim C5 (witness): two clusters, one variant, a single barcode with no
reads: its likelihood entry is defined and equal to 1, its posterior is the
uniform 1/2, and it is assigned to no bucket. -/
theorem claim_C5_witness :
    P_c_s_entry 1 (fun _ _ => 0) (fun _ _ => 0) (fun _ _ => 1 / 2) "A" 0 = .ok 1
    ∧ (getOk (calculate_cell_likelihood 1 2 ["A"] (fun _ _ => 0) (fun _ _ => 0)
        (fun _ _ => 1 / 2) zeroState) zeroState).P_s_c "A" 0 = 1 / ((2 : ℕ) : ℝ)
    ∧ "A" ∉ assign_cells ["A"]
        (getOk (calculate_cell_likelihood 1 2 ["A"] (fun _ _ => 0) (fun _ _ => 0)
          (fun _ _ => 1 / 2) zeroState) zeroState).P_s_c 2 (fun _ => []) 0 := by
  have hok : isOkB (calculate_cell_likelihood 1 2 ["A"] (fun _ _ => 0) (fun _ _ => 0)
      (fun _ _ => 1 / 2) zeroState) = true := by
    obtain ⟨st', hst⟩ := @calc_ok_of 1 2 (fun _ _ => 0) (fun _ _ => 0)
      (fun _ _ => 1 / 2) ["A"] (fun _ _ _ _ _ _ => ⟨by norm_num, by norm_num⟩) zeroState
    rw [hst]
    rfl
  have h := claim_C5_degenerate_barcode 1 2 ["A"] (fun _ _ => 0) (fun _ _ => 0)
    (fun _ _ => 1 / 2) zeroState "A" le_rfl (by simp) (fun _ _ => ⟨rfl, rfl⟩) hok
  exact ⟨h.1 0, h.2.1 0 Nat.zero_lt_two, h.2.2 0⟩

/-- Claim C5 (counterexample): with K = 1 cluster the degenerate barcode's
posterior row is the single value 1/1 = 1 ≥ 0.8, so after `assign_cells`
the zero-coverage barcode does appear in a bucket (bucket 0), contradicting
the claim that it appears in none of the K buckets. -/
theorem claim_C5_counterexample :
    isOkB (calculate_cell_likelihood 1 1 ["A"] (fun _ _ => 0) (fun _ _ => 0)
      (fun _ _ => 1 / 2) zeroState) = true
    ∧ "A" ∈ assign_cells ["A"]
        (getOk (calculate_cell_likelihood 1 1 ["A"] (fun _ _ => 0) (fun _ _ => 0)
          (fun _ _ => 1 / 2) zeroState) zeroState).P_s_c 1 (fun _ => []) 0 := by
  have hok : isOkB (calculate_cell_likelihood 1 1 ["A"] (fun _ _ => 0) (fun _ _ => 0)
      (fun _ _ => 1 / 2) zeroState) = true := by
    obtain ⟨st', hst⟩ := @calc_ok_of 1 1 (fun _ _ => 0) (fun _ _ => 0)
      (fun _ _ => 1 / 2) ["A"] (fun _ _ _ _ _ _ => ⟨by norm_num, by norm_num⟩) zeroState
    rw [hst]
    rfl
  refine ⟨hok, ?_⟩
  obtain ⟨st', hst⟩ := isOkB_exists hok
  rw [getOk_ok zeroState hst]
  obtain ⟨_, hunif⟩ := calc_zero_cov hst (List.mem_singleton_self "A")
    (indicesOf_eq_nil (fun _ _ => ⟨rfl, rfl⟩)) Nat.one_pos
  refine (assign_cells_mem ["A"] st'.P_s_c 1 0 "A").2 ⟨by simp, ?_, ?_⟩
  · rw [rowMax_const Nat.one_pos hunif]
    norm_num
  · exact (idxmax_const Nat.one_pos hunif).symm
